import Mathlib

/-!
Verification of the `splitter` repository: a byte-stream splitter that cuts an
input stream into delimiter-separated values and re-batches accepted values
into size-bounded chunks.

Shallow embedding conventions:
* Bytes are modelled as `Nat`, byte strings as `List Nat`, the input stream as
  a finite `List Nat` consumed sequentially (the Go code reads it one byte at
  a time through `bufio.Reader.ReadByte`).
* Go `int64` sequence numbers are modelled as `Int`; the scanned-byte counter
  (only ever incremented) is a `Nat`.
* The flush callback is modelled by collecting, in order, the
  `FlushChunkArgs` records that the Go code would pass to the handler.
* The run loop of `RunSplit` is a loop whose Go termination argument is that
  every iteration consumes input; it is embedded with an explicit fuel
  parameter that `RunSplit` instantiates with more than enough fuel
  (`2 * length + 2`), mirroring the loop exactly.  Running out of fuel is
  marked by the artificial result `RunResult.fuelOut`, which is proved
  unreachable whenever the scan of the input succeeds.
-/

namespace Splitter

/-- Source constant `MinChunkSizeLimit = 16`. -/
def MinChunkSizeLimit : Nat := 16

/-- Source constant `MinValueMaxScanSizeLimit = 4096`. -/
def MinValueMaxScanSizeLimit : Nat := 4096

/-- Status of one `valueReader.Next` call: Go returns `error` which here is
either `nil` (`ok`), `io.EOF` (`eof`) or `ErrValueReaderMaxScanSizeLimit`
(`scanLimit`).  No other I/O errors arise from a pure in-memory stream. -/
inductive VErr where
  | ok
  | eof
  | scanLimit
deriving DecidableEq, Repr

/-- State of the Go `valueReader`: the unread rest of the stream, the
delimiter, the effective scan limit, the scanned-byte counter and the sticky
EOF flag. -/
structure ValueReader where
  remaining : List Nat
  delim : List Nat
  valueMaxScanSizeLimit : Nat
  scanByteNum : Nat
  isEOF : Bool
deriving DecidableEq, Repr

/-- The byte-by-byte scan loop inside `valueReader.Next`: reads one byte at a
time, appends it to the scratch buffer, and stops when the buffer ends with
the delimiter (fast path compares the final byte first), when the source is
exhausted (sticky EOF is set, the partial buffer is returned with a `nil`
error) or when the buffer reaches the scan limit.  Returns
`(value, err, remaining, scanByteNum, isEOF)`. -/
def nextLoop (delim : List Nat) (limit : Nat) :
    List Nat → Nat → List Nat → List Nat × VErr × List Nat × Nat × Bool
  | buf, scanned, [] => (buf, .ok, [], scanned, true)
  | buf, scanned, b :: rest =>
    let buf2 := buf ++ [b]
    let scanned2 := scanned + 1
    if b = delim.getLast! ∧ delim.length ≤ buf2.length ∧
        buf2.drop (buf2.length - delim.length) = delim then
      (buf2.take (buf2.length - delim.length), .ok, rest, scanned2, false)
    else if buf2.length = limit then
      (buf2, .scanLimit, rest, scanned2, false)
    else
      nextLoop delim limit buf2 scanned2 rest

/-- `valueReader.Next`: if the sticky EOF flag is set, immediately return
`io.EOF` without touching the source; otherwise run the scan loop from an
empty scratch buffer. -/
def ValueReader.next (vr : ValueReader) : List Nat × VErr × ValueReader :=
  if vr.isEOF then ([], .eof, vr)
  else
    match nextLoop vr.delim vr.valueMaxScanSizeLimit [] vr.scanByteNum vr.remaining with
    | (v, err, rem2, sc2, eof2) =>
      (v, err, { vr with remaining := rem2, scanByteNum := sc2, isEOF := eof2 })

/-- `NewValueReader` (through `NewValueReaderAndLimiter` with no rate limit):
the effective scan limit is clamped to at least `MinValueMaxScanSizeLimit`. -/
def NewValueReader (rd delim : List Nat) (valueMaxScanSizeLimit : Nat) : ValueReader :=
  { remaining := rd
    delim := delim
    valueMaxScanSizeLimit := max valueMaxScanSizeLimit MinValueMaxScanSizeLimit
    scanByteNum := 0
    isEOF := false }

/-- The argument record passed to the flush handler (`FlushChunkArgs`). -/
structure FlushChunkArgs where
  ChunkSn : Int
  StartValueSn : Int
  EndValueSn : Int
  ChunkData : List Nat
  ScanByteNum : Nat
deriving DecidableEq, Repr

/-- Outcome of `RunSplit`: Go returns `nil` (`ok`), `ErrSplitterIsStarted`,
`ErrSplitterIsStopped`, or propagates the scan-limit error.  `fuelOut` is an
artifact of the fuel-based embedding of the run loop and is proved
unreachable for the fuel `RunSplit` supplies. -/
inductive RunResult where
  | ok
  | errStarted
  | errStopped
  | errScanLimit
  | fuelOut
deriving DecidableEq, Repr

/-- State of the Go `splitter` struct.  One variant of the repository exposes
a configurable starting chunk sequence number (`StartChunkSn`), the other
fixes it to 0; `chunkSn` holds the current value either way. -/
structure splitter where
  chunkSizeLimit : Nat
  chunkBuffer : List Nat
  chunkSn : Int
  chunkStartValueSn : Int
  nextValueSn : Int
  delimiter : List Nat
  valueMaxScanSizeLimit : Nat
  valueFilter : Option (List Nat → List Nat)
  started : Nat
  stopped : Nat

/-- Configuration record `Conf`.  The flush handler is not a field here: the
embedding collects the handler arguments instead of invoking a callback.
`StartChunkSn` is present in one variant of the repository and defaults to 0
in the other. -/
structure Conf where
  Delim : List Nat
  ChunkSizeLimit : Nat
  ValueMaxScanSizeLimit : Nat
  ValueFilter : Option (List Nat → List Nat)
  StartChunkSn : Int

/-- The splitter state built by `NewSplitter` before any run. -/
def initSplitter (conf : Conf) : splitter :=
  { chunkSizeLimit := max conf.ChunkSizeLimit MinChunkSizeLimit
    chunkBuffer := []
    chunkSn := conf.StartChunkSn
    chunkStartValueSn := 0
    nextValueSn := 0
    delimiter := conf.Delim
    valueMaxScanSizeLimit := max conf.ValueMaxScanSizeLimit MinValueMaxScanSizeLimit
    valueFilter := conf.ValueFilter
    started := 0
    stopped := 0 }

/-- `NewSplitter`: panics (here: `none`) on an empty delimiter, otherwise
builds the initial state with both limits clamped to their minima. -/
def NewSplitter (conf : Conf) : Option splitter :=
  if conf.Delim = [] then none else some (initSplitter conf)

/-- The filter step of the run loop: Go applies the configured filter only
when it is non-nil and the value is non-empty. -/
def applyFilter (vf : Option (List Nat → List Nat)) (value : List Nat) : List Nat :=
  match vf with
  | some f => if 0 < value.length then f value else value
  | none => value

/-- `splitter.flushChunk`: strips the trailing delimiter from the buffered
chunk bytes (and copies them) before handing the record to the handler. -/
def flushChunk (s : splitter) (args : FlushChunkArgs) : FlushChunkArgs :=
  { args with ChunkData := args.ChunkData.take (args.ChunkData.length - s.delimiter.length) }

/-- The per-value body of the `RunSplit` loop (source lines: filter, the
pre-flush decision, and the append of `value ++ delimiter`).  Returns the
flush-handler records emitted by this step together with the new splitter
state.  `sbn` is the value of `vr.GetScanByteNum()` at this point. -/
def processValue (s : splitter) (value0 : List Nat) (sbn : Nat) :
    List FlushChunkArgs × splitter :=
  let value := applyFilter s.valueFilter value0
  if 0 < value.length then
    let pre :=
      if s.chunkSizeLimit < s.chunkBuffer.length + value.length ∧ 0 < s.chunkBuffer.length then
        ([flushChunk s
            { ChunkSn := s.chunkSn
              StartValueSn := s.chunkStartValueSn
              EndValueSn := s.nextValueSn - 1
              ChunkData := s.chunkBuffer
              ScanByteNum := sbn }],
         { s with chunkSn := s.chunkSn + 1
                  chunkBuffer := []
                  chunkStartValueSn := s.nextValueSn })
      else ([], s)
    (pre.1,
     { pre.2 with chunkBuffer := pre.2.chunkBuffer ++ value ++ pre.2.delimiter
                  nextValueSn := pre.2.nextValueSn + 1 })
  else ([], s)

/-- The `for` loop of `RunSplit`, with explicit fuel.  Each iteration checks
the stop flag, pulls the next value, returns any non-EOF error, processes the
value, and on `io.EOF` flushes the residual buffer and stops. -/
def runLoopF : Nat → splitter → ValueReader →
    List FlushChunkArgs × RunResult × splitter × ValueReader
  | 0, s, vr => ([], .fuelOut, s, vr)
  | fuel + 1, s, vr =>
    if 0 < s.stopped then ([], .errStopped, s, vr)
    else
      match vr.next with
      | (value0, err, vr2) =>
        if err = .scanLimit then ([], .errScanLimit, s, vr2)
        else
          let pv := processValue s value0 vr2.scanByteNum
          if err = .eof then
            if 0 < pv.2.chunkBuffer.length then
              (pv.1 ++ [flushChunk pv.2
                  { ChunkSn := pv.2.chunkSn
                    StartValueSn := pv.2.chunkStartValueSn
                    EndValueSn := pv.2.nextValueSn - 1
                    ChunkData := pv.2.chunkBuffer
                    ScanByteNum := vr2.scanByteNum }],
               .ok,
               { pv.2 with chunkSn := pv.2.chunkSn + 1, chunkBuffer := [] },
               vr2)
            else (pv.1, .ok, pv.2, vr2)
          else
            match runLoopF fuel pv.2 vr2 with
            | (out, res, s3, vr3) => (pv.1 ++ out, res, s3, vr3)

/-- `splitter.RunSplit`: the one-shot start guard (atomic increment compared
with 1), then the run loop over a fresh value reader.  Returns the emitted
flush records, the result, the final splitter state and the number of bytes
read from the stream. -/
def RunSplit (s : splitter) (rd : List Nat) :
    List FlushChunkArgs × RunResult × splitter × Nat :=
  if s.started + 1 ≠ 1 then ([], .errStarted, { s with started := s.started + 1 }, 0)
  else
    match runLoopF (2 * rd.length + 2) { s with started := s.started + 1 }
        (NewValueReader rd s.delimiter s.valueMaxScanSizeLimit) with
    | (out, res, s2, vr2) => (out, res, s2, vr2.scanByteNum)

/-- `splitter.Stop`: atomically increments the stop flag. -/
def Stop (s : splitter) : splitter :=
  { s with stopped := s.stopped + 1 }

/-! ## Specification-side functions

The remaining definitions are the list-level model the code is proved to
refine: the sequence of values the scanner yields, the accepted values after
filtering, and the grouping of accepted values into chunks. -/

/-- The sequence of values that successive `next` calls yield until the EOF
call, with the same fuel discipline as `runLoopF` (one unit per `next`
call); `none` when a value hits the scan limit (or fuel runs out, which
cannot happen for the fuel `scanValues` supplies). -/
def scanValuesF : Nat → ValueReader → Option (List (List Nat))
  | 0, _ => none
  | fuel + 1, vr =>
    if vr.isEOF then some []
    else
      match vr.next with
      | (v, .ok, vr2) => (scanValuesF fuel vr2).map fun vs => v :: vs
      | (_, .eof, _) => some []
      | (_, .scanLimit, _) => none

/-- The value sequence of the exact reader that `RunSplit (initSplitter conf)`
creates for the stream `rd`, with the fuel `RunSplit` uses. -/
def scanSplit (conf : Conf) (rd : List Nat) : Option (List (List Nat)) :=
  scanValuesF (2 * rd.length + 2)
    (NewValueReader rd conf.Delim (initSplitter conf).valueMaxScanSizeLimit)

/-- Accepted values: apply the filter step to each scanned value and drop the
empty results. -/
def acceptedVals (vf : Option (List Nat → List Nat)) : List (List Nat) → List (List Nat)
  | [] => []
  | v :: vs =>
    let w := applyFilter vf v
    if w = [] then acceptedVals vf vs else w :: acceptedVals vf vs

/-- Concatenation of values each followed by the delimiter: the shape of the
chunk buffer. -/
def joinD (d : List Nat) : List (List Nat) → List Nat
  | [] => []
  | v :: vs => v ++ d ++ joinD d vs

/-- Values joined with the delimiter between them (no trailing delimiter):
the shape of an emitted chunk payload. -/
def icalD (d : List Nat) : List (List Nat) → List Nat
  | [] => []
  | [v] => v
  | v :: vs => v ++ d ++ icalD d vs

/-- Flattening of a list of chunk groups back into the value sequence. -/
def joinV : List (List (List Nat)) → List (List Nat)
  | [] => []
  | g :: gs => g ++ joinV gs

/-- List-level model of the accumulator: group a value sequence into chunks,
flushing the group under construction exactly when the buffered bytes plus
the incoming value would exceed the limit and the group is non-empty. -/
def chunkGroups (limit : Nat) (d : List Nat) : List (List Nat) → List (List Nat) →
    List (List (List Nat))
  | cur, [] => if cur = [] then [] else [cur]
  | cur, v :: vs =>
    if limit < (joinD d cur).length + v.length ∧ cur ≠ [] then
      cur :: chunkGroups limit d [v] vs
    else
      chunkGroups limit d (cur ++ [v]) vs

/-- The observable fields of one emitted chunk (everything except the
scanned-byte count, which depends on scanner progress). -/
structure ChunkOut where
  sn : Int
  startSn : Int
  endSn : Int
  payload : List Nat
deriving DecidableEq, Repr

/-- Projection of a flush record to its observable fields. -/
def projOut (a : FlushChunkArgs) : ChunkOut :=
  ⟨a.ChunkSn, a.StartValueSn, a.EndValueSn, a.ChunkData⟩

/-- The chunk records the list-level model predicts for the given groups,
starting at chunk sequence number `c0` and value sequence number `sn0`. -/
def specChunks (d : List Nat) : Int → Int → List (List (List Nat)) → List ChunkOut
  | _, _, [] => []
  | c0, sn0, g :: gs =>
    ⟨c0, sn0, sn0 + (g.length : Int) - 1, icalD d g⟩ ::
      specChunks d (c0 + 1) (sn0 + (g.length : Int)) gs

/-! ## Concrete instances used in scenario theorems and counterexamples -/

/-- A plain configuration: delimiter `","` (byte 44), chunk limit 16, no
filter, defaults elsewhere. -/
def confComma : Conf :=
  { Delim := [44]
    ChunkSizeLimit := 16
    ValueMaxScanSizeLimit := 0
    ValueFilter := none
    StartChunkSn := 0 }

/-- A configuration with the two-byte delimiter `"aa"` (bytes 97 97) and
chunk limit 16. -/
def confAA : Conf :=
  { Delim := [97, 97]
    ChunkSizeLimit := 16
    ValueMaxScanSizeLimit := 0
    ValueFilter := none
    StartChunkSn := 0 }

/-- The splitter state reached by `RunSplit (initSplitter confComma)` on the
input `"abcdefghi,abcdef"` right after the first value `"abcdefghi"` has been
buffered: the buffer holds the ten bytes `"abcdefghi,"`. -/
def c2State : splitter :=
  { chunkSizeLimit := 16
    chunkBuffer := [97, 98, 99, 100, 101, 102, 103, 104, 105, 44]
    chunkSn := 0
    chunkStartValueSn := 0
    nextValueSn := 1
    delimiter := [44]
    valueMaxScanSizeLimit := 4096
    valueFilter := none
    started := 1
    stopped := 0 }

/-- The pre-flush condition exactly as claim C2 words it: appending the value
plus one delimiter would make the buffer exceed the limit, and the buffer is
non-empty. -/
abbrev specPreFlushCond (bufLen valueLen delimLen limit : Nat) : Prop :=
  limit < bufLen + valueLen + delimLen ∧ 0 < bufLen

/-- A fresh reader over the two-byte stream `"ab"` with delimiter `","`: its
first `next` call reaches end-of-stream without finding a delimiter. -/
def c6Reader : ValueReader :=
  { remaining := [97, 98]
    delim := [44]
    valueMaxScanSizeLimit := 4096
    scanByteNum := 0
    isEOF := false }

/-- A reader whose sticky EOF flag is already set (the state after `c6Reader`
has consumed its whole stream). -/
def c6ReaderDone : ValueReader :=
  { remaining := []
    delim := [44]
    valueMaxScanSizeLimit := 4096
    scanByteNum := 2
    isEOF := true }

/-! ## List-level lemmas -/

theorem joinD_eq_nil_iff (d : List Nat) (hd : d ≠ []) (xs : List (List Nat)) :
    joinD d xs = [] ↔ xs = [] := by
  cases xs with
  | nil => simp [joinD]
  | cons x t => simp [joinD, hd]

theorem joinD_snoc (d : List Nat) (xs : List (List Nat)) (v : List Nat) :
    joinD d (xs ++ [v]) = joinD d xs ++ (v ++ d) := by
  induction xs with
  | nil => simp [joinD]
  | cons x t ih => simp [joinD, ih]

theorem joinD_eq_icalD (d : List Nat) (xs : List (List Nat)) (hx : xs ≠ []) :
    joinD d xs = icalD d xs ++ d := by
  induction xs with
  | nil => exact absurd rfl hx
  | cons x t ih =>
    cases t with
    | nil => simp [joinD, icalD]
    | cons y u =>
      have ihh := ih (by simp)
      calc joinD d (x :: y :: u) = x ++ d ++ joinD d (y :: u) := by simp [joinD]
        _ = x ++ d ++ (icalD d (y :: u) ++ d) := by rw [ihh]
        _ = icalD d (x :: y :: u) ++ d := by simp [icalD]

theorem take_len_append (xs ys : List Nat) : (xs ++ ys).take xs.length = xs := by
  induction xs with
  | nil => simp
  | cons x t ih => simp [ih]

theorem strip_joinD (d : List Nat) (xs : List (List Nat)) (hx : xs ≠ []) :
    (joinD d xs).take ((joinD d xs).length - d.length) = icalD d xs := by
  rw [joinD_eq_icalD d xs hx]
  simp only [List.length_append, Nat.add_sub_cancel]
  exact take_len_append _ _

theorem icalD_snoc (d : List Nat) (xs : List (List Nat)) (v : List Nat) (hx : xs ≠ []) :
    icalD d (xs ++ [v]) = icalD d xs ++ d ++ v := by
  induction xs with
  | nil => exact absurd rfl hx
  | cons x t ih =>
    cases t with
    | nil => simp [icalD]
    | cons y u =>
      have ihh := ih (by simp)
      calc icalD d ((x :: y :: u) ++ [v])
          = x ++ d ++ icalD d ((y :: u) ++ [v]) := by simp [icalD]
        _ = x ++ d ++ (icalD d (y :: u) ++ d ++ v) := by rw [ihh]
        _ = icalD d (x :: y :: u) ++ d ++ v := by simp [icalD]

theorem icalD_append (d : List Nat) (xs ys : List (List Nat)) (hx : xs ≠ []) (hy : ys ≠ []) :
    icalD d (xs ++ ys) = icalD d xs ++ d ++ icalD d ys := by
  induction xs with
  | nil => exact absurd rfl hx
  | cons x t ih =>
    cases t with
    | nil =>
      cases ys with
      | nil => exact absurd rfl hy
      | cons y u => simp [icalD]
    | cons z u =>
      have ihh := ih (by simp)
      calc icalD d ((x :: z :: u) ++ ys)
          = x ++ d ++ icalD d ((z :: u) ++ ys) := by simp [icalD]
        _ = x ++ d ++ (icalD d (z :: u) ++ d ++ icalD d ys) := by rw [ihh]
        _ = icalD d (x :: z :: u) ++ d ++ icalD d ys := by simp [icalD]

theorem joinV_ne_nil (g : List (List Nat)) (gs : List (List (List Nat))) (hg : g ≠ []) :
    joinV (g :: gs) ≠ [] := by
  cases g with
  | nil => exact absurd rfl hg
  | cons v t => simp [joinV]

theorem icalD_joinV (d : List Nat) (gs : List (List (List Nat)))
    (h : ∀ g ∈ gs, g ≠ []) :
    icalD d (gs.map (icalD d)) = icalD d (joinV gs) := by
  induction gs with
  | nil => simp [joinV]
  | cons g gs ih =>
    cases gs with
    | nil => simp [icalD, joinV]
    | cons g2 t =>
      have hg : g ≠ [] := h g (by simp)
      have hg2 : g2 ≠ [] := h g2 (by simp)
      have hrest : ∀ x ∈ g2 :: t, x ≠ [] := by
        intro x hx
        exact h x (List.mem_cons_of_mem _ hx)
      have hj : joinV (g2 :: t) ≠ [] := joinV_ne_nil g2 t hg2
      calc icalD d ((g :: g2 :: t).map (icalD d))
          = icalD d g ++ d ++ icalD d ((g2 :: t).map (icalD d)) := by
            simp [icalD]
        _ = icalD d g ++ d ++ icalD d (joinV (g2 :: t)) := by rw [ih hrest]
        _ = icalD d (g ++ joinV (g2 :: t)) := (icalD_append d g _ hg hj).symm
        _ = icalD d (joinV (g :: g2 :: t)) := by simp [joinV]

theorem chunkGroups_joinV (l : Nat) (d : List Nat) :
    ∀ (vs : List (List Nat)) (cur : List (List Nat)),
      joinV (chunkGroups l d cur vs) = cur ++ vs := by
  intro vs
  induction vs with
  | nil =>
    intro cur
    by_cases hc : cur = [] <;> simp [chunkGroups, hc, joinV]
  | cons v vs ih =>
    intro cur
    by_cases hc : l < (joinD d cur).length + v.length ∧ cur ≠ []
    · simp only [chunkGroups, if_pos hc, joinV, ih [v]]
      simp
    · simp only [chunkGroups, if_neg hc, ih (cur ++ [v])]
      simp

theorem chunkGroups_ne_nil (l : Nat) (d : List Nat) :
    ∀ (vs : List (List Nat)) (cur g : List (List Nat)),
      g ∈ chunkGroups l d cur vs → g ≠ [] := by
  intro vs
  induction vs with
  | nil =>
    intro cur g hg
    by_cases hc : cur = []
    · simp [chunkGroups, hc] at hg
    · simp only [chunkGroups, if_neg hc] at hg
      simp at hg
      exact hg ▸ hc
  | cons v vs ih =>
    intro cur g hg
    by_cases hc : l < (joinD d cur).length + v.length ∧ cur ≠ []
    · simp only [chunkGroups, if_pos hc] at hg
      rcases List.mem_cons.mp hg with h | h
      · exact h ▸ hc.2
      · exact ih [v] g h
    · simp only [chunkGroups, if_neg hc] at hg
      exact ih (cur ++ [v]) g hg

theorem chunkGroups_sizeBound (l : Nat) (d : List Nat) :
    ∀ (vs : List (List Nat)) (cur : List (List Nat)),
      ((icalD d cur).length ≤ l ∨ cur.length = 1) →
      ∀ g ∈ chunkGroups l d cur vs, (icalD d g).length ≤ l ∨ g.length = 1 := by
  intro vs
  induction vs with
  | nil =>
    intro cur hcur g hg
    by_cases hc : cur = []
    · simp [chunkGroups, hc] at hg
    · simp only [chunkGroups, if_neg hc] at hg
      simp at hg
      exact hg ▸ hcur
  | cons v vs ih =>
    intro cur hcur g hg
    by_cases hc : l < (joinD d cur).length + v.length ∧ cur ≠ []
    · simp only [chunkGroups, if_pos hc] at hg
      rcases List.mem_cons.mp hg with h | h
      · exact h ▸ hcur
      · exact ih [v] (Or.inr rfl) g h
    · simp only [chunkGroups, if_neg hc] at hg
      refine ih (cur ++ [v]) ?_ g hg
      by_cases hcn : cur = []
      · subst hcn
        exact Or.inr rfl
      · left
        have hle : (joinD d cur).length + v.length ≤ l := by
          rcases not_and_or.mp hc with h | h
          · omega
          · exact absurd hcn fun _ => h hcn
        have h1 : (icalD d (cur ++ [v])).length =
            (icalD d cur).length + d.length + v.length := by
          rw [icalD_snoc d cur v hcn]
          simp only [List.length_append]
        have h2 : (joinD d cur).length = (icalD d cur).length + d.length := by
          rw [joinD_eq_icalD d cur hcn]
          simp
        omega

theorem specChunks_length (d : List Nat) :
    ∀ (gs : List (List (List Nat))) (c0 sn0 : Int),
      (specChunks d c0 sn0 gs).length = gs.length := by
  intro gs
  induction gs with
  | nil => intro c0 sn0; simp [specChunks]
  | cons g gs ih => intro c0 sn0; simp [specChunks, ih]

theorem specChunks_get_sn (d : List Nat) :
    ∀ (gs : List (List (List Nat))) (c0 sn0 : Int) (i : Nat)
      (hi : i < (specChunks d c0 sn0 gs).length),
      ((specChunks d c0 sn0 gs).get ⟨i, hi⟩).sn = c0 + i := by
  intro gs
  induction gs with
  | nil => intro c0 sn0 i hi; simp [specChunks] at hi
  | cons g gs ih =>
    intro c0 sn0 i hi
    cases i with
    | zero => simp [specChunks]
    | succ n =>
      have hn : n < (specChunks d (c0 + 1) (sn0 + (g.length : Int)) gs).length := by
        simpa [specChunks] using hi
      have := ih (c0 + 1) (sn0 + (g.length : Int)) n hn
      simp only [specChunks, List.get_cons_succ]
      rw [this]
      push_cast
      ring

theorem specChunks_get_zero_startSn (d : List Nat) (gs : List (List (List Nat)))
    (c0 sn0 : Int) (h : 0 < (specChunks d c0 sn0 gs).length) :
    ((specChunks d c0 sn0 gs).get ⟨0, h⟩).startSn = sn0 := by
  cases gs with
  | nil => simp [specChunks] at h
  | cons g gs => simp [specChunks]

theorem specChunks_mem (d : List Nat) :
    ∀ (gs : List (List (List Nat))) (c0 sn0 : Int) (x : ChunkOut),
      x ∈ specChunks d c0 sn0 gs →
      ∃ g ∈ gs, x.payload = icalD d g ∧ x.endSn = x.startSn + (g.length : Int) - 1 := by
  intro gs
  induction gs with
  | nil => intro c0 sn0 x hx; simp [specChunks] at hx
  | cons g gs ih =>
    intro c0 sn0 x hx
    simp only [specChunks, List.mem_cons] at hx
    rcases hx with h | h
    · exact ⟨g, by simp, by simp [h], by simp [h]⟩
    · rcases ih (c0 + 1) (sn0 + (g.length : Int)) x h with ⟨g2, hg2, hp, he⟩
      exact ⟨g2, List.mem_cons_of_mem _ hg2, hp, he⟩

theorem specChunks_adjacent (d : List Nat) :
    ∀ (gs : List (List (List Nat))) (c0 sn0 : Int) (i : Nat)
      (hi : i + 1 < (specChunks d c0 sn0 gs).length)
      (hi0 : i < (specChunks d c0 sn0 gs).length),
      ((specChunks d c0 sn0 gs).get ⟨i + 1, hi⟩).startSn =
        ((specChunks d c0 sn0 gs).get ⟨i, hi0⟩).endSn + 1 := by
  intro gs
  induction gs with
  | nil => intro c0 sn0 i hi hi0; simp [specChunks] at hi
  | cons g gs ih =>
    intro c0 sn0 i hi hi0
    cases i with
    | zero =>
      have h1 : 0 < (specChunks d (c0 + 1) (sn0 + (g.length : Int)) gs).length := by
        simpa [specChunks] using hi
      have hz : ((specChunks d c0 sn0 (g :: gs)).get ⟨0, hi0⟩).endSn =
          sn0 + (g.length : Int) - 1 := by
        simp [specChunks]
      have hsucc : ((specChunks d c0 sn0 (g :: gs)).get ⟨0 + 1, hi⟩).startSn =
          sn0 + (g.length : Int) := by
        simp only [specChunks, List.get_cons_succ]
        exact specChunks_get_zero_startSn d gs (c0 + 1) (sn0 + (g.length : Int)) h1
      rw [hsucc, hz]
      ring
    | succ n =>
      have hn : n + 1 < (specChunks d (c0 + 1) (sn0 + (g.length : Int)) gs).length := by
        simpa [specChunks] using hi
      have hn0 : n < (specChunks d (c0 + 1) (sn0 + (g.length : Int)) gs).length := by
        omega
      have := ih (c0 + 1) (sn0 + (g.length : Int)) n hn hn0
      simpa [specChunks, List.get_cons_succ] using this

theorem specChunks_getLast_endSn (d : List Nat) :
    ∀ (gs : List (List (List Nat))) (c0 sn0 : Int)
      (hs : specChunks d c0 sn0 gs ≠ []),
      ((specChunks d c0 sn0 gs).getLast hs).endSn =
        sn0 + ((joinV gs).length : Int) - 1 := by
  intro gs
  induction gs with
  | nil => intro c0 sn0 hs; simp [specChunks] at hs
  | cons g gs ih =>
    intro c0 sn0 hs
    cases gs with
    | nil => simp [specChunks, joinV, List.getLast]
    | cons g2 t =>
      have hs2 : specChunks d (c0 + 1) (sn0 + (g.length : Int)) (g2 :: t) ≠ [] := by
        simp [specChunks]
      have hstep :
          (specChunks d c0 sn0 (g :: g2 :: t)).getLast hs =
            (specChunks d (c0 + 1) (sn0 + (g.length : Int)) (g2 :: t)).getLast hs2 := by
        simp only [specChunks]
        exact List.getLast_cons hs2
      rw [hstep, ih (c0 + 1) (sn0 + (g.length : Int)) hs2]
      have : (joinV (g :: g2 :: t)).length = g.length + (joinV (g2 :: t)).length := by
        simp [joinV]
      rw [this]
      push_cast
      ring

theorem get_map_out (f : FlushChunkArgs → ChunkOut) :
    ∀ (l : List FlushChunkArgs) (i : Nat) (h1 : i < (l.map f).length) (h2 : i < l.length),
      (l.map f).get ⟨i, h1⟩ = f (l.get ⟨i, h2⟩) := by
  intro l
  induction l with
  | nil => intro i h1 h2; simp at h2
  | cons a t ih =>
    intro i h1 h2
    cases i with
    | zero => simp
    | succ n =>
      have hh1 : n < (t.map f).length := by simpa using h1
      have hh2 : n < t.length := by simpa using h2
      simp only [List.map_cons, List.get_cons_succ]
      exact ih n hh1 hh2

theorem getLast_map_out (f : FlushChunkArgs → ChunkOut) :
    ∀ (l : List FlushChunkArgs) (h : l ≠ []) (h2 : l.map f ≠ []),
      (l.map f).getLast h2 = f (l.getLast h) := by
  intro l
  induction l with
  | nil => intro h _; exact absurd rfl h
  | cons a t ih =>
    intro h h2
    cases t with
    | nil => simp [List.getLast]
    | cons b u =>
      have ht : (b :: u : List FlushChunkArgs) ≠ [] := by simp
      have ht2 : (b :: u : List FlushChunkArgs).map f ≠ [] := by simp
      have hl : (a :: b :: u : List FlushChunkArgs).getLast h = (b :: u).getLast ht :=
        List.getLast_cons ht
      have hl2 : ((a :: b :: u : List FlushChunkArgs).map f).getLast h2 =
          ((b :: u).map f).getLast ht2 := by
        simp only [List.map_cons]
        exact List.getLast_cons ht2
      rw [hl, hl2, ih ht ht2]

/-! ## Scanner and step lemmas -/

theorem applyFilter_nil (vf : Option (List Nat → List Nat)) : applyFilter vf [] = [] := by
  cases vf <;> simp [applyFilter]

theorem processValue_empty (s : splitter) (value0 : List Nat) (sbn : Nat)
    (h : applyFilter s.valueFilter value0 = []) :
    processValue s value0 sbn = ([], s) := by
  simp [processValue, h]

theorem processValue_noflush (s : splitter) (value0 : List Nat) (sbn : Nat)
    (hv : applyFilter s.valueFilter value0 ≠ [])
    (hc : ¬(s.chunkSizeLimit < s.chunkBuffer.length + (applyFilter s.valueFilter value0).length ∧
        0 < s.chunkBuffer.length)) :
    processValue s value0 sbn =
      ([], { s with
              chunkBuffer := s.chunkBuffer ++ applyFilter s.valueFilter value0 ++ s.delimiter
              nextValueSn := s.nextValueSn + 1 }) := by
  have hp : 0 < (applyFilter s.valueFilter value0).length := List.length_pos.mpr hv
  simp [processValue, hp, hc]

theorem processValue_flush (s : splitter) (value0 : List Nat) (sbn : Nat)
    (hv : applyFilter s.valueFilter value0 ≠ [])
    (hc : s.chunkSizeLimit < s.chunkBuffer.length + (applyFilter s.valueFilter value0).length ∧
        0 < s.chunkBuffer.length) :
    processValue s value0 sbn =
      ([flushChunk s
          { ChunkSn := s.chunkSn
            StartValueSn := s.chunkStartValueSn
            EndValueSn := s.nextValueSn - 1
            ChunkData := s.chunkBuffer
            ScanByteNum := sbn }],
       { s with
          chunkSn := s.chunkSn + 1
          chunkBuffer := applyFilter s.valueFilter value0 ++ s.delimiter
          chunkStartValueSn := s.nextValueSn
          nextValueSn := s.nextValueSn + 1 }) := by
  have hp : 0 < (applyFilter s.valueFilter value0).length := List.length_pos.mpr hv
  simp [processValue, hp, hc]

theorem nextLoop_ne_eof (d : List Nat) (lim : Nat) :
    ∀ (rem buf : List Nat) (sc : Nat), (nextLoop d lim buf sc rem).2.1 ≠ VErr.eof := by
  intro rem
  induction rem with
  | nil => intro buf sc; simp [nextLoop]
  | cons b rest ih =>
    intro buf sc
    simp only [nextLoop]
    split
    · simp
    · split
      · simp
      · exact ih _ _

theorem nextLoop_eof_ok (d : List Nat) (lim : Nat) :
    ∀ (rem buf : List Nat) (sc : Nat),
      (nextLoop d lim buf sc rem).2.2.2.2 = true →
      (nextLoop d lim buf sc rem).2.1 = VErr.ok ∧ (nextLoop d lim buf sc rem).2.2.1 = [] := by
  intro rem
  induction rem with
  | nil => intro buf sc _; simp [nextLoop]
  | cons b rest ih =>
    intro buf sc h
    simp only [nextLoop] at h ⊢
    split at h
    · simp at h
    · split at h
      · simp at h
      · rename_i h1 h2
        simp only [if_neg h1, if_neg h2]
        exact ih _ _ h

theorem next_eof (vr : ValueReader) (h : vr.isEOF = true) :
    vr.next = ([], VErr.eof, vr) := by
  simp [ValueReader.next, h]

theorem next_ne_eof (vr : ValueReader) (h : vr.isEOF = false) :
    (vr.next).2.1 ≠ VErr.eof := by
  have hloop := nextLoop_ne_eof vr.delim vr.valueMaxScanSizeLimit vr.remaining [] vr.scanByteNum
  simp only [ValueReader.next, h]
  rcases hn : nextLoop vr.delim vr.valueMaxScanSizeLimit [] vr.scanByteNum vr.remaining with
    ⟨v, err, rem2, sc2, eof2⟩
  rw [hn] at hloop
  simpa using hloop

theorem next_eofHit (vr : ValueReader) (h : vr.isEOF = false)
    (h2 : (vr.next).2.2.isEOF = true) :
    (vr.next).2.1 = VErr.ok ∧ (vr.next).2.2.remaining = [] := by
  have hloop := nextLoop_eof_ok vr.delim vr.valueMaxScanSizeLimit vr.remaining [] vr.scanByteNum
  simp only [ValueReader.next, h] at h2 ⊢
  rcases hn : nextLoop vr.delim vr.valueMaxScanSizeLimit [] vr.scanByteNum vr.remaining with
    ⟨v, err, rem2, sc2, eof2⟩
  rw [hn] at hloop
  rw [hn] at h2
  simp at h2
  simpa using hloop h2

theorem specChunks_payloads (d : List Nat) :
    ∀ (gs : List (List (List Nat))) (c0 sn0 : Int),
      (specChunks d c0 sn0 gs).map (fun c => c.payload) = gs.map (icalD d) := by
  intro gs
  induction gs with
  | nil => intro c0 sn0; simp [specChunks]
  | cons g gs ih => intro c0 sn0; simp [specChunks, ih]

theorem processValue_started (s : splitter) (value0 : List Nat) (sbn : Nat) :
    (processValue s value0 sbn).2.started = s.started := by
  by_cases hv : applyFilter s.valueFilter value0 = []
  · rw [processValue_empty s value0 sbn hv]
  · by_cases hc : s.chunkSizeLimit < s.chunkBuffer.length +
        (applyFilter s.valueFilter value0).length ∧ 0 < s.chunkBuffer.length
    · rw [processValue_flush s value0 sbn hv hc]
    · rw [processValue_noflush s value0 sbn hv hc]

theorem runLoopF_started :
    ∀ (fuel : Nat) (s : splitter) (vr : ValueReader),
      (runLoopF fuel s vr).2.2.1.started = s.started := by
  intro fuel
  induction fuel with
  | zero => intro s vr; rfl
  | succ fuel ih =>
    intro s vr
    simp only [runLoopF]
    by_cases hstop : 0 < s.stopped
    · simp [hstop]
    · simp only [if_neg hstop]
      rcases hnext : vr.next with ⟨value0, err, vr2⟩
      by_cases h1 : err = VErr.scanLimit
      · simp [h1]
      · by_cases h2 : err = VErr.eof
        · by_cases h3 : 0 < (processValue s value0 vr2.scanByteNum).2.chunkBuffer.length
          · simp [h1, h2, h3, processValue_started]
          · simp [h1, h2, h3, processValue_started]
        · rcases hrec : runLoopF fuel (processValue s value0 vr2.scanByteNum).2 vr2 with
            ⟨out, res, s3, vr3⟩
          have := ih (processValue s value0 vr2.scanByteNum).2 vr2
          rw [hrec] at this
          simp only [h1, h2, if_neg, hrec]
          simp at this ⊢
          rw [this, processValue_started]

theorem RunSplit_started (s : splitter) (rd : List Nat) :
    (RunSplit s rd).2.2.1.started = s.started + 1 := by
  simp only [RunSplit]
  by_cases h : s.started + 1 ≠ 1
  · simp [h]
  · simp only [if_neg h]
    rcases hrun : runLoopF (2 * rd.length + 2) { s with started := s.started + 1 }
        (NewValueReader rd s.delimiter s.valueMaxScanSizeLimit) with ⟨out, res, s2, vr2⟩
    have := runLoopF_started (2 * rd.length + 2) { s with started := s.started + 1 }
      (NewValueReader rd s.delimiter s.valueMaxScanSizeLimit)
    rw [hrun] at this
    simpa using this

theorem get_congr_list {α : Type} {l1 l2 : List α} (h : l1 = l2) (i : Nat)
    (hi1 : i < l1.length) (hi2 : i < l2.length) :
    l1.get ⟨i, hi1⟩ = l2.get ⟨i, hi2⟩ := by
  subst h
  rfl

theorem getLast_congr_list {α : Type} {l1 l2 : List α} (h : l1 = l2)
    (h1 : l1 ≠ []) (h2 : l2 ≠ []) :
    l1.getLast h1 = l2.getLast h2 := by
  subst h
  rfl

/-! ## The refinement theorem: the run loop against the list-level model -/

/-- Main refinement lemma: when the scan of the remaining input succeeds, the
run loop returns `ok` and its emitted chunk records (projected to their
observable fields) are exactly those the list-level model predicts from the
currently buffered values `cur` and the upcoming scanned values `vs`. -/
theorem runLoopF_spec :
    ∀ (fuel : Nat) (s : splitter) (vr : ValueReader) (cur vs : List (List Nat)),
      s.stopped = 0 →
      s.delimiter ≠ [] →
      s.chunkBuffer = joinD s.delimiter cur →
      s.nextValueSn = s.chunkStartValueSn + (cur.length : Int) →
      scanValuesF fuel vr = some vs →
      (runLoopF fuel s vr).2.1 = RunResult.ok ∧
      (runLoopF fuel s vr).1.map projOut =
        specChunks s.delimiter s.chunkSn s.chunkStartValueSn
          (chunkGroups s.chunkSizeLimit s.delimiter cur (acceptedVals s.valueFilter vs)) := by
  intro fuel
  induction fuel with
  | zero =>
    intro s vr cur vs _ _ _ _ hscan
    simp [scanValuesF] at hscan
  | succ fuel ih =>
    intro s vr cur vs hstop hdne hbuf hsn hscan
    have hstop2 : ¬ 0 < s.stopped := by omega
    have hbpos : 0 < s.chunkBuffer.length ↔ cur ≠ [] := by
      rw [hbuf, List.length_pos]
      exact not_congr (joinD_eq_nil_iff s.delimiter hdne cur)
    simp only [scanValuesF] at hscan
    by_cases hEOF : vr.isEOF
    · -- the reader is already at EOF: this iteration flushes and stops
      rw [if_pos hEOF] at hscan
      have hvs : vs = [] := (Option.some.inj hscan).symm
      subst hvs
      simp only [runLoopF, if_neg hstop2, next_eof vr hEOF]
      rw [processValue_empty s [] vr.scanByteNum (applyFilter_nil s.valueFilter)]
      by_cases hcur : cur = []
      · subst hcur
        have hb0 : ¬ 0 < s.chunkBuffer.length := by simp [hbuf, joinD]
        simp [hb0, acceptedVals, chunkGroups, specChunks]
      · have hb1 : 0 < s.chunkBuffer.length := hbpos.mpr hcur
        have hpay : s.chunkBuffer.take (s.chunkBuffer.length - s.delimiter.length) =
            icalD s.delimiter cur := by
          rw [hbuf]
          exact strip_joinD s.delimiter cur hcur
        simp [hb1, acceptedVals, chunkGroups, hcur, specChunks, projOut, flushChunk, hpay, hsn]
    · rw [if_neg hEOF] at hscan
      have hEOF2 : vr.isEOF = false := by simpa using hEOF
      rcases hnext : vr.next with ⟨value0, err, vr2⟩
      rw [hnext] at hscan
      cases err with
      | eof =>
        have h1 : (vr.next).2.1 = VErr.eof := by rw [hnext]
        exact absurd h1 (next_ne_eof vr hEOF2)
      | scanLimit => simp at hscan
      | ok =>
        simp only [Option.map_eq_some'] at hscan
        obtain ⟨vs2, hscan2, hvs⟩ := hscan
        subst hvs
        simp only [runLoopF, if_neg hstop2]
        rw [hnext]
        have hif1 : (VErr.ok = VErr.scanLimit) = False := by simp
        have hif2 : (VErr.ok = VErr.eof) = False := by simp
        simp only [hif1, hif2, if_false]
        by_cases hv : applyFilter s.valueFilter value0 = []
        · rw [processValue_empty s value0 vr2.scanByteNum hv]
          have hacc : acceptedVals s.valueFilter (value0 :: vs2) =
              acceptedVals s.valueFilter vs2 := by
            simp [acceptedVals, hv]
          rw [hacc]
          obtain ⟨hres, hmap⟩ := ih s vr2 cur vs2 hstop hdne hbuf hsn hscan2
          rcases hrec : runLoopF fuel s vr2 with ⟨out, res, s3, vr3⟩
          rw [hrec] at hres hmap
          simp only [hrec]
          refine ⟨hres, ?_⟩
          simpa using hmap
        · have hacc : acceptedVals s.valueFilter (value0 :: vs2) =
              applyFilter s.valueFilter value0 :: acceptedVals s.valueFilter vs2 := by
            simp [acceptedVals, hv]
          rw [hacc]
          by_cases hcond : s.chunkSizeLimit <
              s.chunkBuffer.length + (applyFilter s.valueFilter value0).length ∧
              0 < s.chunkBuffer.length
          · -- pre-flush, then the value starts a fresh chunk
            have hcur : cur ≠ [] := hbpos.mp hcond.2
            have hcond2 : s.chunkSizeLimit <
                (joinD s.delimiter cur).length + (applyFilter s.valueFilter value0).length ∧
                cur ≠ [] := ⟨by rw [← hbuf]; exact hcond.1, hcur⟩
            rw [processValue_flush s value0 vr2.scanByteNum hv hcond]
            have hbuf2 : applyFilter s.valueFilter value0 ++ s.delimiter =
                joinD s.delimiter [applyFilter s.valueFilter value0] := by
              simp [joinD]
            obtain ⟨hres, hmap⟩ := ih
              { s with chunkSn := s.chunkSn + 1
                       chunkBuffer := applyFilter s.valueFilter value0 ++ s.delimiter
                       chunkStartValueSn := s.nextValueSn
                       nextValueSn := s.nextValueSn + 1 }
              vr2 [applyFilter s.valueFilter value0] vs2 hstop hdne hbuf2 (by simp) hscan2
            rcases hrec : runLoopF fuel
              { s with chunkSn := s.chunkSn + 1
                       chunkBuffer := applyFilter s.valueFilter value0 ++ s.delimiter
                       chunkStartValueSn := s.nextValueSn
                       nextValueSn := s.nextValueSn + 1 } vr2 with ⟨out, res, s3, vr3⟩
            rw [hrec] at hres hmap
            simp only [hrec]
            have hpay : s.chunkBuffer.take (s.chunkBuffer.length - s.delimiter.length) =
                icalD s.delimiter cur := by
              rw [hbuf]
              exact strip_joinD s.delimiter cur hcur
            refine ⟨hres, ?_⟩
            simp only [chunkGroups, if_pos hcond2, specChunks, List.map_append, List.map_cons,
              List.map_nil, List.singleton_append]
            refine List.cons_eq_cons.mpr ⟨?_, ?_⟩
            · simp [projOut, flushChunk, hpay, hsn]
            · rw [← hsn]
              simpa using hmap
          · -- no flush: the value joins the current chunk
            have hcond2 : ¬ (s.chunkSizeLimit <
                (joinD s.delimiter cur).length + (applyFilter s.valueFilter value0).length ∧
                cur ≠ []) := by
              intro h
              exact hcond ⟨by rw [hbuf]; exact h.1, hbpos.mpr h.2⟩
            rw [processValue_noflush s value0 vr2.scanByteNum hv hcond]
            have hbuf2 : s.chunkBuffer ++ applyFilter s.valueFilter value0 ++ s.delimiter =
                joinD s.delimiter (cur ++ [applyFilter s.valueFilter value0]) := by
              rw [joinD_snoc, ← hbuf]
              simp
            have hsn2 : s.nextValueSn + 1 =
                s.chunkStartValueSn + ((cur ++ [applyFilter s.valueFilter value0]).length : Int) := by
              rw [hsn]
              simp
              ring
            obtain ⟨hres, hmap⟩ := ih
              { s with chunkBuffer := s.chunkBuffer ++ applyFilter s.valueFilter value0 ++ s.delimiter
                       nextValueSn := s.nextValueSn + 1 }
              vr2 (cur ++ [applyFilter s.valueFilter value0]) vs2 hstop hdne hbuf2 hsn2 hscan2
            rcases hrec : runLoopF fuel
              { s with chunkBuffer := s.chunkBuffer ++ applyFilter s.valueFilter value0 ++ s.delimiter
                       nextValueSn := s.nextValueSn + 1 } vr2 with ⟨out, res, s3, vr3⟩
            rw [hrec] at hres hmap
            simp only [hrec]
            refine ⟨hres, ?_⟩
            simp only [chunkGroups, if_neg hcond2]
            simpa using hmap

/-- Refinement at the `RunSplit` level, for a freshly constructed splitter. -/
theorem RunSplit_spec (conf : Conf) (rd : List Nat) (vs : List (List Nat))
    (hd : conf.Delim ≠ [])
    (hscan : scanSplit conf rd = some vs) :
    (RunSplit (initSplitter conf) rd).2.1 = RunResult.ok ∧
    (RunSplit (initSplitter conf) rd).1.map projOut =
      specChunks conf.Delim conf.StartChunkSn 0
        (chunkGroups (max conf.ChunkSizeLimit MinChunkSizeLimit) conf.Delim []
          (acceptedVals conf.ValueFilter vs)) := by
  have hspec := runLoopF_spec (2 * rd.length + 2)
    { initSplitter conf with started := (initSplitter conf).started + 1 }
    (NewValueReader rd (initSplitter conf).delimiter (initSplitter conf).valueMaxScanSizeLimit)
    [] vs rfl hd rfl (by simp [initSplitter]) hscan
  simp only [RunSplit]
  rcases hrun : runLoopF (2 * rd.length + 2)
      { initSplitter conf with started := (initSplitter conf).started + 1 }
      (NewValueReader rd (initSplitter conf).delimiter (initSplitter conf).valueMaxScanSizeLimit)
    with ⟨out, res, s2, vr2⟩
  rw [hrun] at hspec
  simp only [initSplitter, if_neg (by omega : ¬ (0 : Nat) + 1 ≠ 1)]
  refine ⟨hspec.1, ?_⟩
  simpa [initSplitter] using hspec.2


/-! ## Claim theorems -/

/-- Claim C1: for every input stream, delimiter and filter whose scan
succeeds, concatenating the payloads of all chunks emitted by the run with
the delimiter reinserted between them reproduces exactly the accepted
(non-filtered-out) values of the input, in original order, joined by the
delimiter. -/
theorem c1_concat_roundtrip (conf : Conf) (rd : List Nat) (vs : List (List Nat))
    (hd : conf.Delim ≠ []) (hscan : scanSplit conf rd = some vs) :
    icalD conf.Delim (((RunSplit (initSplitter conf) rd).1).map (fun a => a.ChunkData)) =
      icalD conf.Delim (acceptedVals conf.ValueFilter vs) := by
  obtain ⟨-, hmap⟩ := RunSplit_spec conf rd vs hd hscan
  have h1 : ((RunSplit (initSplitter conf) rd).1).map (fun a => a.ChunkData) =
      (((RunSplit (initSplitter conf) rd).1).map projOut).map (fun c => c.payload) := by
    rw [List.map_map]
    rfl
  rw [h1, hmap, specChunks_payloads]
  rw [icalD_joinV conf.Delim _
    (fun g hg => chunkGroups_ne_nil (max conf.ChunkSizeLimit MinChunkSizeLimit) conf.Delim
      (acceptedVals conf.ValueFilter vs) [] g hg)]
  rw [chunkGroups_joinV]
  simp

/-- Witness for C1 on the concrete stream `"a,b"` with delimiter `","`. -/
theorem c1_concat_roundtrip_witness :
    confComma.Delim ≠ [] ∧
    scanSplit confComma [97, 44, 98] = some [[97], [98]] ∧
    icalD confComma.Delim (((RunSplit (initSplitter confComma) [97, 44, 98]).1).map
        (fun a => a.ChunkData)) =
      icalD confComma.Delim (acceptedVals confComma.ValueFilter [[97], [98]]) :=
  ⟨by decide, by decide,
    c1_concat_roundtrip confComma [97, 44, 98] [[97], [98]] (by decide) (by decide)⟩

/-- Claim C2 is false as stated: in the state reached on input
`"abcdefghi,abcdef"` right before the value `"abcdef"` is handled (buffer
`"abcdefghi,"` of length 10, limit 16, delimiter length 1), appending the
value plus one delimiter would exceed the limit (10 + 6 + 1 > 16) and the
buffer is non-empty, yet the code performs no pre-flush; accordingly the full
run packs both values into a single chunk spanning value sequence numbers 0
to 1. -/
theorem c2_counterexample :
    specPreFlushCond c2State.chunkBuffer.length
        [100, 100, 100, 100, 100, 100].length c2State.delimiter.length
        c2State.chunkSizeLimit ∧
    (processValue c2State [100, 100, 100, 100, 100, 100] 16).1 = [] ∧
    ((RunSplit (initSplitter confComma)
        [97, 98, 99, 100, 101, 102, 103, 104, 105, 44, 97, 98, 99, 100, 101, 102]).1.map
      projOut =
      [⟨0, 0, 1, [97, 98, 99, 100, 101, 102, 103, 104, 105, 44, 97, 98, 99, 100, 101, 102]⟩]) :=
  ⟨by decide, by decide, by decide⟩

/-- Claim C2 amended: a pre-flush happens exactly when the buffered length
plus the accepted value length exceeds `ChunkSizeLimit` and the buffer is
non-empty; the incoming value delimiter is not counted in the check (the
buffer already ends with the delimiter written after the previous value). -/
theorem c2_flush_condition (s : splitter) (value0 : List Nat) (sbn : Nat) :
    (processValue s value0 sbn).1 ≠ [] ↔
      (applyFilter s.valueFilter value0 ≠ [] ∧
       s.chunkSizeLimit < s.chunkBuffer.length + (applyFilter s.valueFilter value0).length ∧
       0 < s.chunkBuffer.length) := by
  by_cases hv : applyFilter s.valueFilter value0 = []
  · rw [processValue_empty s value0 sbn hv]
    simp [hv]
  · by_cases hc : s.chunkSizeLimit < s.chunkBuffer.length +
        (applyFilter s.valueFilter value0).length ∧ 0 < s.chunkBuffer.length
    · rw [processValue_flush s value0 sbn hv hc]
      simp [hv, hc]
    · rw [processValue_noflush s value0 sbn hv hc]
      simp [hv, hc]

/-- Claim C3: in every successful run, each emitted chunk payload is at most
`ChunkSizeLimit` (after clamping) long, or else the chunk holds exactly one
value (its start and end value sequence numbers coincide). -/
theorem c3_chunk_size_bound (conf : Conf) (rd : List Nat) (vs : List (List Nat))
    (hd : conf.Delim ≠ []) (hscan : scanSplit conf rd = some vs) :
    ∀ a ∈ (RunSplit (initSplitter conf) rd).1,
      a.ChunkData.length ≤ max conf.ChunkSizeLimit MinChunkSizeLimit ∨
        a.StartValueSn = a.EndValueSn := by
  obtain ⟨-, hmap⟩ := RunSplit_spec conf rd vs hd hscan
  intro a ha
  have hmem : projOut a ∈ ((RunSplit (initSplitter conf) rd).1).map projOut :=
    List.mem_map_of_mem projOut ha
  rw [hmap] at hmem
  obtain ⟨g, hg, hpay, hend⟩ := specChunks_mem conf.Delim _ _ _ _ hmem
  have hsize := chunkGroups_sizeBound (max conf.ChunkSizeLimit MinChunkSizeLimit) conf.Delim
    (acceptedVals conf.ValueFilter vs) [] (Or.inl (by simp [icalD])) g hg
  rcases hsize with h | h
  · left
    have hp : a.ChunkData = icalD conf.Delim g := hpay
    rw [hp]
    exact h
  · right
    have he : a.EndValueSn = a.StartValueSn + (g.length : Int) - 1 := hend
    rw [h] at he
    push_cast at he
    omega

/-- Witness for C3 on the concrete stream `"a,b"` with delimiter `","`. -/
theorem c3_chunk_size_bound_witness :
    confComma.Delim ≠ [] ∧
    scanSplit confComma [97, 44, 98] = some [[97], [98]] ∧
    (∀ a ∈ (RunSplit (initSplitter confComma) [97, 44, 98]).1,
      a.ChunkData.length ≤ max confComma.ChunkSizeLimit MinChunkSizeLimit ∨
        a.StartValueSn = a.EndValueSn) :=
  ⟨by decide, by decide,
    c3_chunk_size_bound confComma [97, 44, 98] [[97], [98]] (by decide) (by decide)⟩

/-- Claim C4: an accepted value that arrives with an empty buffer is placed
alone into the buffer, untruncated and without a pre-flush, regardless of its
size; concretely, with limit 16 and a single 30-byte value as the only data,
the run emits exactly one chunk containing that value alone, with payload
length exceeding the limit. -/
theorem c4_oversized_value :
    ((RunSplit (initSplitter confComma) (List.replicate 30 97)).1.map projOut =
      [⟨0, 0, 0, List.replicate 30 97⟩]) ∧
    (initSplitter confComma).chunkSizeLimit < (List.replicate 30 97).length ∧
    (∀ (s : splitter) (v : List Nat) (sbn : Nat),
      s.chunkBuffer = [] →
      applyFilter s.valueFilter v ≠ [] →
      processValue s v sbn =
        ([], { s with
                chunkBuffer := applyFilter s.valueFilter v ++ s.delimiter
                nextValueSn := s.nextValueSn + 1 })) := by
  refine ⟨by decide, by decide, ?_⟩
  intro s v sbn hb hv
  have hc : ¬ (s.chunkSizeLimit < s.chunkBuffer.length +
      (applyFilter s.valueFilter v).length ∧ 0 < s.chunkBuffer.length) := by
    rw [hb]
    simp
  rw [processValue_noflush s v sbn hv hc, hb]
  simp

/-- Witness for C4: the oversized 30-byte value applied to the fresh splitter
state with its empty buffer. -/
theorem c4_oversized_value_witness :
    (initSplitter confComma).chunkBuffer = [] ∧
    applyFilter (initSplitter confComma).valueFilter (List.replicate 30 97) ≠ [] ∧
    processValue (initSplitter confComma) (List.replicate 30 97) 0 =
      ([], { initSplitter confComma with
              chunkBuffer := applyFilter (initSplitter confComma).valueFilter
                  (List.replicate 30 97) ++ (initSplitter confComma).delimiter
              nextValueSn := (initSplitter confComma).nextValueSn + 1 }) :=
  ⟨rfl, by decide,
    c4_oversized_value.2.2 (initSplitter confComma) (List.replicate 30 97) 0 rfl (by decide)⟩

/-- Claim C5 is false as stated: with delimiter `"aa"` and input `"baaa"`
(values `"b"` and `"a"`), the single emitted chunk has payload `"baaa"`,
which ends with the delimiter bytes, even though the trailing delimiter
appended by the accumulator was stripped. -/
theorem c5_counterexample :
    ((RunSplit (initSplitter confAA) [98, 97, 97, 97]).1.map projOut =
      [⟨0, 0, 1, [98, 97, 97, 97]⟩]) ∧
    ([98, 97, 97, 97] : List Nat).drop
        (([98, 97, 97, 97] : List Nat).length - confAA.Delim.length) = confAA.Delim :=
  ⟨by decide, by decide⟩

/-- Claim C5 amended: for every emitted chunk of a successful run, the
trailing delimiter appended by the accumulator is stripped before the handler
is invoked and the separating delimiters are retained: each payload equals the
chunk values joined by the delimiter.  (The payload can nevertheless end with
delimiter bytes when value bytes and a separator happen to line up, as the
counterexample shows.) -/
theorem c5_payload_stripped (conf : Conf) (rd : List Nat) (vs : List (List Nat))
    (hd : conf.Delim ≠ []) (hscan : scanSplit conf rd = some vs) :
    ((RunSplit (initSplitter conf) rd).1).map (fun a => a.ChunkData) =
      (chunkGroups (max conf.ChunkSizeLimit MinChunkSizeLimit) conf.Delim []
        (acceptedVals conf.ValueFilter vs)).map (icalD conf.Delim) := by
  obtain ⟨-, hmap⟩ := RunSplit_spec conf rd vs hd hscan
  have h1 : ((RunSplit (initSplitter conf) rd).1).map (fun a => a.ChunkData) =
      (((RunSplit (initSplitter conf) rd).1).map projOut).map (fun c => c.payload) := by
    rw [List.map_map]
    rfl
  rw [h1, hmap, specChunks_payloads]

/-- Witness for C5 amended on the concrete stream `"a,b"` with
delimiter `","`. -/
theorem c5_payload_stripped_witness :
    confComma.Delim ≠ [] ∧
    scanSplit confComma [97, 44, 98] = some [[97], [98]] ∧
    ((RunSplit (initSplitter confComma) [97, 44, 98]).1).map (fun a => a.ChunkData) =
      (chunkGroups (max confComma.ChunkSizeLimit MinChunkSizeLimit) confComma.Delim []
        (acceptedVals confComma.ValueFilter [[97], [98]])).map (icalD confComma.Delim) :=
  ⟨by decide, by decide,
    c5_payload_stripped confComma [97, 44, 98] [[97], [98]] (by decide) (by decide)⟩

/-- Claim C6 is false as stated: on the stream `"ab"` with delimiter `","`,
the call that reaches end-of-stream returns the accumulated bytes with status
ok (the Go code returns a nil error), not with status end-of-stream; the
sticky EOF flag is set for subsequent calls. -/
theorem c6_counterexample :
    (c6Reader.next).1 = [97, 98] ∧
    (c6Reader.next).2.2.isEOF = true ∧
    (c6Reader.next).2.1 = VErr.ok ∧
    ¬ (c6Reader.next).2.1 = VErr.eof :=
  ⟨by decide, by decide, by decide, by decide⟩

/-- Claim C6 amended: when the scanner reaches end-of-stream before finding a
delimiter, that call returns the accumulated bytes (possibly empty) with
status ok and sets the sticky EOF flag, having consumed the whole stream;
every subsequent call immediately returns end-of-stream without touching the
underlying source (the reader state is returned unchanged). -/
theorem c6_eof_sticky :
    (∀ vr : ValueReader, vr.isEOF = true → vr.next = ([], VErr.eof, vr)) ∧
    (∀ vr : ValueReader, vr.isEOF = false → (vr.next).2.2.isEOF = true →
      (vr.next).2.1 = VErr.ok ∧ (vr.next).2.2.remaining = []) :=
  ⟨next_eof, next_eofHit⟩

/-- Witness for C6 amended: the concrete reader over `"ab"` and its
exhausted successor state. -/
theorem c6_eof_sticky_witness :
    (c6ReaderDone.isEOF = true ∧ c6ReaderDone.next = ([], VErr.eof, c6ReaderDone)) ∧
    (c6Reader.isEOF = false ∧ (c6Reader.next).2.2.isEOF = true ∧
      (c6Reader.next).2.1 = VErr.ok ∧ (c6Reader.next).2.2.remaining = []) :=
  ⟨⟨rfl, c6_eof_sticky.1 c6ReaderDone rfl⟩,
    ⟨rfl, by decide,
      (c6_eof_sticky.2 c6Reader rfl (by decide)).1,
      (c6_eof_sticky.2 c6Reader rfl (by decide)).2⟩⟩

/-- Claim C7: in every successful run from a fresh splitter, chunk sequence
numbers are contiguous from the configured start (default 0); the first chunk
starts at value sequence number 0; consecutive chunks have adjacent value
ranges (so value sequence numbers are contiguous, zero-based and strictly
increasing, with filtered-out values consuming no number); every chunk
satisfies start at most end; and the last chunk ends exactly at the number of
accepted values minus one. -/
theorem c7_sequence_numbers (conf : Conf) (rd : List Nat) (vs : List (List Nat))
    (hd : conf.Delim ≠ []) (hscan : scanSplit conf rd = some vs) :
    (∀ (i : Nat) (hi : i < (RunSplit (initSplitter conf) rd).1.length),
      (((RunSplit (initSplitter conf) rd).1).get ⟨i, hi⟩).ChunkSn =
        conf.StartChunkSn + (i : Int)) ∧
    (∀ h0 : 0 < (RunSplit (initSplitter conf) rd).1.length,
      (((RunSplit (initSplitter conf) rd).1).get ⟨0, h0⟩).StartValueSn = 0) ∧
    (∀ (i : Nat) (hi : i + 1 < (RunSplit (initSplitter conf) rd).1.length)
      (hi0 : i < (RunSplit (initSplitter conf) rd).1.length),
      (((RunSplit (initSplitter conf) rd).1).get ⟨i + 1, hi⟩).StartValueSn =
        (((RunSplit (initSplitter conf) rd).1).get ⟨i, hi0⟩).EndValueSn + 1) ∧
    (∀ a ∈ (RunSplit (initSplitter conf) rd).1, a.StartValueSn ≤ a.EndValueSn) ∧
    (∀ hne : (RunSplit (initSplitter conf) rd).1 ≠ [],
      ((RunSplit (initSplitter conf) rd).1.getLast hne).EndValueSn + 1 =
        ((acceptedVals conf.ValueFilter vs).length : Int)) := by
  obtain ⟨-, hmap⟩ := RunSplit_spec conf rd vs hd hscan
  refine ⟨?_, ?_, ?_, ?_, ?_⟩
  · intro i hi
    have hi2 : i < ((RunSplit (initSplitter conf) rd).1.map projOut).length := by
      simpa using hi
    have hi3 : i < (specChunks conf.Delim conf.StartChunkSn 0
        (chunkGroups (max conf.ChunkSizeLimit MinChunkSizeLimit) conf.Delim []
          (acceptedVals conf.ValueFilter vs))).length := by
      rw [← hmap]
      exact hi2
    have h1 := get_map_out projOut (RunSplit (initSplitter conf) rd).1 i hi2 hi
    have h2 := get_congr_list hmap i hi2 hi3
    have h3 := specChunks_get_sn conf.Delim _ conf.StartChunkSn 0 i hi3
    calc (((RunSplit (initSplitter conf) rd).1).get ⟨i, hi⟩).ChunkSn
        = (((RunSplit (initSplitter conf) rd).1.map projOut).get ⟨i, hi2⟩).sn := by
          rw [h1]
          rfl
      _ = conf.StartChunkSn + (i : Int) := by rw [h2]; exact h3
  · intro h0
    have h02 : 0 < ((RunSplit (initSplitter conf) rd).1.map projOut).length := by
      simpa using h0
    have h03 : 0 < (specChunks conf.Delim conf.StartChunkSn 0
        (chunkGroups (max conf.ChunkSizeLimit MinChunkSizeLimit) conf.Delim []
          (acceptedVals conf.ValueFilter vs))).length := by
      rw [← hmap]
      exact h02
    have h1 := get_map_out projOut (RunSplit (initSplitter conf) rd).1 0 h02 h0
    have h2 := get_congr_list hmap 0 h02 h03
    have h3 := specChunks_get_zero_startSn conf.Delim _ conf.StartChunkSn 0 h03
    calc (((RunSplit (initSplitter conf) rd).1).get ⟨0, h0⟩).StartValueSn
        = (((RunSplit (initSplitter conf) rd).1.map projOut).get ⟨0, h02⟩).startSn := by
          rw [h1]
          rfl
      _ = 0 := by rw [h2]; exact h3
  · intro i hi hi0
    have hi2 : i + 1 < ((RunSplit (initSplitter conf) rd).1.map projOut).length := by
      simpa using hi
    have hi02 : i < ((RunSplit (initSplitter conf) rd).1.map projOut).length := by
      simpa using hi0
    have hi3 : i + 1 < (specChunks conf.Delim conf.StartChunkSn 0
        (chunkGroups (max conf.ChunkSizeLimit MinChunkSizeLimit) conf.Delim []
          (acceptedVals conf.ValueFilter vs))).length := by
      rw [← hmap]
      exact hi2
    have hi03 : i < (specChunks conf.Delim conf.StartChunkSn 0
        (chunkGroups (max conf.ChunkSizeLimit MinChunkSizeLimit) conf.Delim []
          (acceptedVals conf.ValueFilter vs))).length := by
      rw [← hmap]
      exact hi02
    have h1 := get_map_out projOut (RunSplit (initSplitter conf) rd).1 (i + 1) hi2 hi
    have h10 := get_map_out projOut (RunSplit (initSplitter conf) rd).1 i hi02 hi0
    have h2 := get_congr_list hmap (i + 1) hi2 hi3
    have h20 := get_congr_list hmap i hi02 hi03
    have h3 := specChunks_adjacent conf.Delim _ conf.StartChunkSn 0 i hi3 hi03
    calc (((RunSplit (initSplitter conf) rd).1).get ⟨i + 1, hi⟩).StartValueSn
        = (((RunSplit (initSplitter conf) rd).1.map projOut).get ⟨i + 1, hi2⟩).startSn := by
          rw [h1]
          rfl
      _ = (((RunSplit (initSplitter conf) rd).1.map projOut).get ⟨i, hi02⟩).endSn + 1 := by
          rw [h2, h20]
          exact h3
      _ = (((RunSplit (initSplitter conf) rd).1).get ⟨i, hi0⟩).EndValueSn + 1 := by
          rw [h10]
          rfl
  · intro a ha
    have hmem : projOut a ∈ ((RunSplit (initSplitter conf) rd).1).map projOut :=
      List.mem_map_of_mem projOut ha
    rw [hmap] at hmem
    obtain ⟨g, hg, -, hend⟩ := specChunks_mem conf.Delim _ _ _ _ hmem
    have hgne : g ≠ [] := chunkGroups_ne_nil (max conf.ChunkSizeLimit MinChunkSizeLimit)
      conf.Delim (acceptedVals conf.ValueFilter vs) [] g hg
    have hgl : 1 ≤ g.length := by
      cases g with
      | nil => exact absurd rfl hgne
      | cons x t => simp
    have he : a.EndValueSn = a.StartValueSn + (g.length : Int) - 1 := hend
    have : (1 : Int) ≤ (g.length : Int) := by exact_mod_cast hgl
    omega
  · intro hne
    have hne2 : ((RunSplit (initSplitter conf) rd).1).map projOut ≠ [] := by
      simpa using hne
    have hne3 : specChunks conf.Delim conf.StartChunkSn 0
        (chunkGroups (max conf.ChunkSizeLimit MinChunkSizeLimit) conf.Delim []
          (acceptedVals conf.ValueFilter vs)) ≠ [] := by
      rw [← hmap]
      exact hne2
    have h1 := getLast_map_out projOut (RunSplit (initSplitter conf) rd).1 hne hne2
    have h2 := getLast_congr_list hmap hne2 hne3
    have h3 := specChunks_getLast_endSn conf.Delim _ conf.StartChunkSn 0 hne3
    have h4 : joinV (chunkGroups (max conf.ChunkSizeLimit MinChunkSizeLimit) conf.Delim []
        (acceptedVals conf.ValueFilter vs)) = acceptedVals conf.ValueFilter vs := by
      rw [chunkGroups_joinV]
      simp
    have h5 : (((RunSplit (initSplitter conf) rd).1).getLast hne).EndValueSn =
        ((acceptedVals conf.ValueFilter vs).length : Int) - 1 := by
      have h6 : (projOut (((RunSplit (initSplitter conf) rd).1).getLast hne)).endSn =
          0 + ((acceptedVals conf.ValueFilter vs).length : Int) - 1 := by
        rw [← h1, h2, h3, h4]
      simpa using h6
    omega

/-- Witness for C7 on the input `"abcdefghi,abcdef,b,"` with delimiter `","`
and chunk limit 16, which produces two chunks. -/
theorem c7_sequence_numbers_witness :
    confComma.Delim ≠ [] ∧
    scanSplit confComma
        [97, 98, 99, 100, 101, 102, 103, 104, 105, 44, 97, 98, 99, 100, 101, 102, 44, 98, 44] =
      some [[97, 98, 99, 100, 101, 102, 103, 104, 105], [97, 98, 99, 100, 101, 102], [98], []] ∧
    (∀ hne : (RunSplit (initSplitter confComma)
        [97, 98, 99, 100, 101, 102, 103, 104, 105, 44, 97, 98, 99, 100, 101, 102, 44, 98, 44]).1 ≠ [],
      ((RunSplit (initSplitter confComma)
        [97, 98, 99, 100, 101, 102, 103, 104, 105, 44, 97, 98, 99, 100, 101, 102, 44, 98, 44]).1.getLast
          hne).EndValueSn + 1 =
        ((acceptedVals confComma.ValueFilter
          [[97, 98, 99, 100, 101, 102, 103, 104, 105], [97, 98, 99, 100, 101, 102], [98], []]).length :
            Int)) :=
  ⟨by decide, by decide,
    (c7_sequence_numbers confComma
      [97, 98, 99, 100, 101, 102, 103, 104, 105, 44, 97, 98, 99, 100, 101, 102, 44, 98, 44]
      [[97, 98, 99, 100, 101, 102, 103, 104, 105], [97, 98, 99, 100, 101, 102], [98], []]
      (by decide) (by decide)).2.2.2.2⟩

/-- Claim C8: calling `RunSplit` a second time on the same instance always
returns the already-started error immediately, emits no chunks, reads no
bytes from the stream, and leaves the state of the original run untouched
except for the start counter (the one-shot guard is an atomic increment
compared with 1, so in a race exactly one caller proceeds; the embedding
linearises the two increments). -/
theorem c8_repeat_call (s : splitter) (rd rd2 : List Nat) :
    (RunSplit (RunSplit s rd).2.2.1 rd2).1 = [] ∧
    (RunSplit (RunSplit s rd).2.2.1 rd2).2.1 = RunResult.errStarted ∧
    (RunSplit (RunSplit s rd).2.2.1 rd2).2.2.2 = 0 ∧
    (RunSplit (RunSplit s rd).2.2.1 rd2).2.2.1 =
      { (RunSplit s rd).2.2.1 with started := (RunSplit s rd).2.2.1.started + 1 } := by
  have h1 : (RunSplit s rd).2.2.1.started = s.started + 1 := RunSplit_started s rd
  have h2 : (RunSplit s rd).2.2.1.started + 1 ≠ 1 := by omega
  have key : ∀ t : splitter, t.started + 1 ≠ 1 →
      RunSplit t rd2 = ([], RunResult.errStarted, { t with started := t.started + 1 }, 0) := by
    intro t ht
    simp [RunSplit, ht]
  have h3 := key ((RunSplit s rd).2.2.1) h2
  exact ⟨by rw [h3], by rw [h3], by rw [h3], by rw [h3]⟩

/-- Claim C9: a stop request observed at the top of a loop iteration
terminates the run with the dedicated stopped status without flushing the
buffered chunk, and a stop requested before the run starts yields zero
chunks, zero bytes read, and the stopped status (distinguished from the other
error outcomes). -/
theorem c9_stop_requested (f : Nat) (s : splitter) (vr : ValueReader) (rd : List Nat) :
    (0 < s.stopped → runLoopF (f + 1) s vr = ([], RunResult.errStopped, s, vr)) ∧
    (0 < s.stopped → s.started = 0 →
      RunSplit s rd = ([], RunResult.errStopped, { s with started := 1 }, 0)) := by
  constructor
  · intro h
    simp [runLoopF, h]
  · intro h hstart
    have h2 : runLoopF (2 * rd.length + 2) { s with started := s.started + 1 }
        (NewValueReader rd s.delimiter s.valueMaxScanSizeLimit) =
        ([], RunResult.errStopped, { s with started := s.started + 1 },
          NewValueReader rd s.delimiter s.valueMaxScanSizeLimit) := by
      have h3 : 2 * rd.length + 2 = (2 * rd.length + 1) + 1 := rfl
      rw [h3]
      simp [runLoopF, h]
    have h4 : ¬ (s.started + 1 ≠ 1) := by omega
    simp only [RunSplit, if_neg h4]
    rw [h2, hstart]
    rfl

/-- Witness for C9: stop requested on a fresh splitter before any bytes are
consumed. -/
theorem c9_stop_requested_witness :
    0 < (Stop (initSplitter confComma)).stopped ∧
    (Stop (initSplitter confComma)).started = 0 ∧
    runLoopF 1 (Stop (initSplitter confComma)) c6Reader =
      ([], RunResult.errStopped, Stop (initSplitter confComma), c6Reader) ∧
    RunSplit (Stop (initSplitter confComma)) [97] =
      ([], RunResult.errStopped, { Stop (initSplitter confComma) with started := 1 }, 0) :=
  ⟨by decide, by decide,
    (c9_stop_requested 0 (Stop (initSplitter confComma)) c6Reader [97]).1 (by decide),
    (c9_stop_requested 0 (Stop (initSplitter confComma)) c6Reader [97]).2 (by decide) (by decide)⟩

/-- Claim C10: every empty value is silently dropped: a value that is empty
after the filter step is never appended and consumes no sequence number; the
configured filter is never invoked on an empty value (the result is the empty
value for every filter function); and on the concrete input `"a,,b,"` with
delimiter `","` (empty values from consecutive delimiters, from the trailing
delimiter, and from end-of-stream) the run emits one chunk with payload
`"a,b"` spanning value sequence numbers 0 to 1. -/
theorem c10_empty_values_dropped :
    (∀ (s : splitter) (v : List Nat) (sbn : Nat),
      applyFilter s.valueFilter v = [] → processValue s v sbn = ([], s)) ∧
    (∀ f : List Nat → List Nat, applyFilter (some f) [] = []) ∧
    ((RunSplit (initSplitter confComma) [97, 44, 44, 98, 44]).1.map projOut =
      [⟨0, 0, 1, [97, 44, 98]⟩]) := by
  refine ⟨processValue_empty, ?_, by decide⟩
  intro f
  simp [applyFilter]

/-- Witness for C10: the empty value on a fresh splitter, and a concrete
filter function never invoked on the empty value. -/
theorem c10_empty_values_dropped_witness :
    applyFilter (initSplitter confComma).valueFilter [] = [] ∧
    processValue (initSplitter confComma) [] 0 = ([], initSplitter confComma) ∧
    applyFilter (some fun _ => [97]) [] = [] :=
  ⟨rfl, c10_empty_values_dropped.1 (initSplitter confComma) [] 0 rfl,
    c10_empty_values_dropped.2.1 (fun _ => [97])⟩

end Splitter
